import Mathlib

/-!
# Lab2: dense and diagonal matrix containers with text import/export

A shallow embedding of `src/Lab2/Lab2/Lab2.cpp`.

* `unsigned` is a 32-bit machine integer: a `Nat` with explicit `% UINT`.
* A C++ exception is an `Except.error`; reading through a reference that does
  not refer to a live object is reported as `Error.undefined_behaviour`.
* A method that mutates `*this` returns the outcome paired with the final
  object state, so that what an exception leaves behind can be stated.
* A matrix returned by value from a named local is a `Returned`: the local
  itself when the copy is elided, otherwise a copy whose buffer has been freed.
* A file is the list of its characters; `none` stands for a path that cannot
  be opened.
* The text conversion of a cell value (`os << v`, `is >> v`) belongs to the
  C++ library and is a parameter (`Codec`); the conversion of `unsigned` and
  of integer-valued `double`s is given concretely.
-/

namespace Lab2

/-- The number of values of the C++ type `unsigned` (32 bits). -/
def UINT : Nat := 2 ^ 32

/-- The exceptions thrown by the source, and undefined behaviour. -/
inductive Error where
  | out_of_range
  | invalid_argument
  | runtime_error
  | undefined_behaviour
  deriving DecidableEq

/-- Equality of outcomes is decidable. -/
instance decEqExcept {ε α : Type} [DecidableEq ε] [DecidableEq α] : DecidableEq (Except ε α)
  | .ok a, .ok b => if h : a = b then isTrue (by rw [h]) else isFalse (fun h2 => h (by cases h2; rfl))
  | .error a, .error b =>
    if h : a = b then isTrue (by rw [h]) else isFalse (fun h2 => h (by cases h2; rfl))
  | .ok _, .error _ => isFalse (fun h2 => by cases h2)
  | .error _, .ok _ => isFalse (fun h2 => by cases h2)

/-- What a returned C++ reference refers to. -/
inductive Ref (T : Type) where
  /-- A reference to the element `data[k]` of the owning container. -/
  | elem (k : Nat) : Ref T
  /-- A reference bound to a temporary holding `v`, which is destroyed when
  the `return` statement completes. -/
  | temporary (v : T) : Ref T
  deriving DecidableEq

/-- Reading through a reference: defined only for an element inside the buffer. -/
def load {T : Type} (data : List T) : Ref T → Except Error T
  | .elem k =>
    match data[k]? with
    | some v => .ok v
    | none => .error .undefined_behaviour
  | .temporary _ => .error .undefined_behaviour

/-- Writing through a reference: defined only for an element inside the buffer. -/
def store {T : Type} (data : List T) (v : T) : Ref T → Except Error (List T)
  | .elem k => if k < data.length then .ok (data.set k v) else .error .undefined_behaviour
  | .temporary _ => .error .undefined_behaviour

/-! ## Streams -/

/-- The text conversion of a value type: `put v` is what `os << v` writes;
`get r` is what `is >> v` does on input `r` whose first character is not
white space: the value stored, the input left, and whether failbit is set. -/
structure Codec (T : Type) where
  put : T → List Char
  get : List Char → T × List Char × Bool

/-- An input file stream: the characters not yet consumed and the fail state. -/
structure IStream where
  rest : List Char
  failed : Bool
  deriving DecidableEq

/-- The white space skipped by formatted input (classic locale). -/
def isspace (c : Char) : Bool :=
  c.toNat == 32 || (9 ≤ c.toNat && c.toNat ≤ 13)

/-- Formatted extraction `is >> x`, where `old` is the value `x` held before.
A stream already in the fail state, or at end of input after skipping white
space, leaves `x` alone; otherwise the conversion decides. -/
def extract {T : Type} (get : List Char → T × List Char × Bool) (s : IStream) (old : T) :
    T × IStream :=
  if s.failed then (old, s)
  else
    match s.rest.dropWhile isspace with
    | [] => (old, ⟨[], true⟩)
    | c :: r =>
      let res := get (c :: r)
      (res.1, ⟨res.2.1, res.2.2⟩)

/-- The value of a decimal digit character. -/
def digitVal (c : Char) : Nat := c.toNat - 48

/-- The decimal value of a digit string. -/
def natOf (ds : List Char) : Nat := ds.foldl (fun a c => a * 10 + digitVal c) 0

/-- The text `os << k` writes for an `unsigned`: the decimal digits. -/
def putUnsigned (k : Nat) : List Char := Nat.toDigits 10 k

/-- The conversion `is >> k` for an `unsigned` on unsigned decimal text: the
longest run of digits is consumed; no digit stores 0 and fails, a value that
does not fit stores the largest `unsigned` and fails. (A leading sign is not
modelled: `Export` never writes one.) -/
def getUnsigned (r : List Char) : Nat × List Char × Bool :=
  let ds := r.takeWhile Char.isDigit
  let r1 := r.dropWhile Char.isDigit
  match ds with
  | [] => (0, r1, true)
  | _ :: _ =>
    let v := natOf ds
    if v < UINT then (v, r1, false) else (UINT - 1, r1, true)

/-- The `unsigned` text conversion as a codec (cells of `MatrixDense<unsigned>`). -/
def unsignedCodec : Codec Nat := ⟨putUnsigned, getUnsigned⟩

/-- A digit string without its trailing zeros. -/
def stripZeros (ds : List Char) : List Char := (ds.reverse.dropWhile (fun c => c == '0')).reverse

/-- The text `os << x` writes for a `double` x holding the integer `v`, with
the stream defaults (general format, precision 6): up to six digits are
written plainly, a longer value is rounded to six significant digits (ties
to even) and written in scientific form without trailing zeros. -/
def putDouble (v : Int) : List Char :=
  let a := v.natAbs
  let sign : List Char := if v < 0 then ['-'] else []
  let ds := Nat.toDigits 10 a
  if ds.length ≤ 6 then sign ++ ds
  else
    let p := 10 ^ (ds.length - 6)
    let q0 := a / p
    let r := a % p
    let q1 := if p < 2 * r ∨ (2 * r = p ∧ q0 % 2 = 1) then q0 + 1 else q0
    let q := if q1 = 1000000 then 100000 else q1
    let e := if q1 = 1000000 then ds.length else ds.length - 1
    let md := Nat.toDigits 10 q
    let frac := stripZeros md.tail
    let es := Nat.toDigits 10 e
    sign ++ md.take 1 ++ (if frac.isEmpty then [] else '.' :: frac) ++ ['e', '+'] ++
      (if e < 10 then '0' :: es else es)

/-- The exponent part of a floating literal: absent (exponent 0), or `e`
with an optional sign and at least one digit. -/
def getExponent (r : List Char) : Option (Int × List Char) :=
  match r with
  | [] => some (0, [])
  | c :: t =>
    if c == 'e' || c == 'E' then
      let neg := t.head? == some '-'
      let t0 := if t.head? == some '-' || t.head? == some '+' then t.tail else t
      match t0.takeWhile Char.isDigit with
      | [] => none
      | d :: ds => some (if neg then - (natOf (d :: ds) : Int) else (natOf (d :: ds) : Int),
          t0.dropWhile Char.isDigit)
    else some (0, c :: t)

/-- The integer `mant * 10 ^ (ex - f)` when it is one of magnitude at most `2 ^ 53`. -/
def scaleInt (mant f : Nat) (ex : Int) : Option Nat :=
  let v : Option Nat :=
    if (f : Int) ≤ ex then some (mant * 10 ^ (ex - f).toNat)
    else if mant % 10 ^ ((f : Int) - ex).toNat = 0 then some (mant / 10 ^ ((f : Int) - ex).toNat)
    else none
  match v with
  | some k => if k ≤ 2 ^ 53 then some k else none
  | none => none

/-- The conversion `is >> x` for a `double`, on text that denotes an integer
of magnitude at most `2 ^ 53` (which a `double` holds exactly): sign, digits,
fraction and exponent are consumed and the integer is stored. Text that
denotes any other number is outside this model and is reported as failed. -/
def getDouble (r : List Char) : Int × List Char × Bool :=
  let neg := r.head? == some '-'
  let r0 := if r.head? == some '-' || r.head? == some '+' then r.tail else r
  let ip := r0.takeWhile Char.isDigit
  let r1 := r0.dropWhile Char.isDigit
  let fp := if r1.head? == some '.' then r1.tail.takeWhile Char.isDigit else []
  let r2 := if r1.head? == some '.' then r1.tail.dropWhile Char.isDigit else r1
  match ip ++ fp with
  | [] => (0, r2, true)
  | d :: ds =>
    match getExponent r2 with
    | none => (0, r2, true)
    | some (ex, r3) =>
      match scaleInt (natOf (d :: ds)) fp.length ex with
      | none => (0, r3, true)
      | some k => (if neg then - (k : Int) else (k : Int), r3, false)

/-- The text conversion of `double`, on integer-valued doubles. -/
def doubleCodec : Codec Int := ⟨putDouble, getDouble⟩

/-- One iteration of the read loop of `Import`: `file >> data[i]`. (The loop
runs over the indices of the buffer, so the cell always exists.) -/
def importStep {T : Type} (c : Codec T) (st : List T × IStream) (i : Nat) : List T × IStream :=
  match st.1[i]? with
  | none => st
  | some old =>
    let res := extract c.get st.2 old
    (st.1.set i res.1, res.2)

/-! ## MatrixDense -/

/-- The state of a `MatrixDense<T>`: `_m`, `_n` and the heap buffer `data`. -/
structure MatrixDense (T : Type) where
  _m : Nat
  _n : Nat
  data : List T
  deriving DecidableEq

/-- What the caller receives from a function that ends in `return result;`
for a local `MatrixDense result`. The class has the destructor
`delete[] data` and declares no copy constructor, so the implicit one copies
`_m`, `_n` and the pointer `data`. -/
inductive Returned (T : Type) where
  /-- The copy was elided: the caller holds the local object itself. -/
  | intact (M : MatrixDense T) : Returned T
  /-- The copy was made and the local then destroyed: the caller holds the
  dimensions and a pointer to a buffer that has been freed. -/
  | freed (m n : Nat) : Returned T
  deriving DecidableEq

/-- The statement `return result;`. Eliding the copy of a named local is
permitted to the compiler and not required: `elided` tells what it did. -/
def returnLocal {T : Type} (elided : Bool) (result : MatrixDense T) : Returned T :=
  if elided then .intact result else .freed result._m result._n

namespace MatrixDense

variable {T : Type}

/-- The constructor `MatrixDense(m, n)`: `new T[m * n]()`, the product
taken in `unsigned` arithmetic, every cell value-initialised. -/
def new [Zero T] (m n : Nat) : MatrixDense T :=
  ⟨m, n, List.replicate ((m * n) % UINT) 0⟩

/-- The accessor `T& operator()(unsigned i, unsigned j)`. -/
def operatorCall (self : MatrixDense T) (i j : Nat) : Except Error (Ref T) :=
  if i ≥ self._m ∨ j ≥ self._n then .error .out_of_range
  else .ok (.elem ((i * self._n + j) % UINT))

/-- The accessor `const T& operator()(unsigned i, unsigned j) const`. -/
def operatorCallConst (self : MatrixDense T) (i j : Nat) : Except Error (Ref T) :=
  if i ≥ self._m ∨ j ≥ self._n then .error .out_of_range
  else .ok (.elem ((i * self._n + j) % UINT))

/-- The expression `m(i, j)` read as a value on a const matrix. -/
def read (self : MatrixDense T) (i j : Nat) : Except Error T :=
  match self.operatorCallConst i j with
  | .error e => .error e
  | .ok r => load self.data r

/-- The statement `m(i, j) = v;`: the outcome and the final state. -/
def assign (self : MatrixDense T) (i j : Nat) (v : T) : Except Error Unit × MatrixDense T :=
  match self.operatorCall i j with
  | .error e => (.error e, self)
  | .ok r =>
    match store self.data v r with
    | .error e => (.error e, self)
    | .ok d => (.ok (), { self with data := d })

/-- One iteration of the loop of `operator+`: `result.data[i] = data[i] + other.data[i]`. -/
def plusStep [Add T] (a b : List T) (res : Except Error (List T)) (i : Nat) :
    Except Error (List T) :=
  match res with
  | .error e => .error e
  | .ok r =>
    match a[i]?, b[i]? with
    | some x, some y => if i < r.length then .ok (r.set i (x + y)) else .error .undefined_behaviour
    | _, _ => .error .undefined_behaviour

/-- The method `operator+`; `elided` tells whether the compiler elided the
copy of the local `result` on return. -/
def operatorPlus [Zero T] [Add T] (elided : Bool) (self other : MatrixDense T) :
    Except Error (Returned T) :=
  if self._m ≠ other._m ∨ self._n ≠ other._n then .error .invalid_argument
  else
    let result : MatrixDense T := new self._m self._n
    match (List.range ((self._m * self._n) % UINT)).foldl
        (plusStep self.data other.data) (.ok result.data) with
    | .error e => .error e
    | .ok d => .ok (returnLocal elided { result with data := d })

/-- The method `Import`. `file` is the content of the named file, `none` when it
cannot be opened; `fresh` is the indeterminate content of the storage that
`new T[_m * _n]` returns. -/
def Import (c : Codec T) (self : MatrixDense T) (file : Option (List Char)) (fresh : Nat → T) :
    Except Error Unit × MatrixDense T :=
  match file with
  | none => (.error .runtime_error, self)
  | some text =>
    let rm := extract getUnsigned ⟨text, false⟩ self._m
    let rn := extract getUnsigned rm.2 self._n
    let len := (rm.1 * rn.1) % UINT
    let buf := (List.range len).map fresh
    let fin := (List.range len).foldl (importStep c) (buf, rn.2)
    (.ok (), ⟨rm.1, rn.1, fin.1⟩)

/-- One iteration of the inner loop of `Export`: `file << (*this)(i, j) << " "`. -/
def exportCell (c : Codec T) (self : MatrixDense T) (i : Nat) (out : List Char) (j : Nat) :
    Except Error (List Char) :=
  match self.read i j with
  | .error e => .error e
  | .ok v => .ok (out ++ c.put v ++ [' '])

/-- One iteration of the outer loop of `Export`: the cells of row `i`, then a newline. -/
def exportRow (c : Codec T) (self : MatrixDense T) (out : List Char) (i : Nat) :
    Except Error (List Char) :=
  match (List.range self._n).foldlM (exportCell c self i) out with
  | .error e => .error e
  | .ok o => .ok (o ++ ['\n'])

/-- The method `Export`: the text written to the file. `canOpen` tells
whether the file could be opened for writing. -/
def Export (c : Codec T) (self : MatrixDense T) (canOpen : Bool) : Except Error (List Char) :=
  if !canOpen then .error .runtime_error
  else
    (List.range self._m).foldlM (exportRow c self)
      (putUnsigned self._m ++ [' '] ++ putUnsigned self._n ++ ['\n'])

end MatrixDense

/-- The expression `r(i, j)` read as a value on a matrix received from a
function: the bounds check uses the copied dimensions, and the cell is read
from the buffer the object points to, which must not have been freed. -/
def Returned.read {T : Type} (R : Returned T) (i j : Nat) : Except Error T :=
  match R with
  | .intact M => M.read i j
  | .freed m n =>
    if i ≥ m ∨ j ≥ n then .error .out_of_range else .error .undefined_behaviour

/-! ## MatrixDiagonal -/

/-- The state of a `MatrixDiagonal`: `_size` and the vector `data`. The cell
type `T` stands for `double`. -/
structure MatrixDiagonal (T : Type) where
  _size : Nat
  data : List T
  deriving DecidableEq

namespace MatrixDiagonal

variable {T : Type}

/-- The constructor `MatrixDiagonal(size)`: `data(size, 0.0)`. -/
def new [Zero T] (size : Nat) : MatrixDiagonal T :=
  ⟨size, List.replicate size 0⟩

/-- The accessor `double& operator()(unsigned i, unsigned j)`. -/
def operatorCall (self : MatrixDiagonal T) (i j : Nat) : Except Error (Ref T) :=
  if i ≥ self._size ∨ j ≥ self._size then .error .out_of_range
  else if i ≠ j then .error .invalid_argument
  else .ok (.elem i)

/-- The accessor `const double& operator()(unsigned i, unsigned j) const`. Off
the diagonal it executes `return 0.0;`, which binds the returned reference to
a temporary. -/
def operatorCallConst [Zero T] (self : MatrixDiagonal T) (i j : Nat) : Except Error (Ref T) :=
  if i ≥ self._size ∨ j ≥ self._size then .error .out_of_range
  else if i ≠ j then .ok (.temporary 0)
  else .ok (.elem i)

/-- The expression `d(i, j)` read as a value on a const matrix. -/
def read [Zero T] (self : MatrixDiagonal T) (i j : Nat) : Except Error T :=
  match self.operatorCallConst i j with
  | .error e => .error e
  | .ok r => load self.data r

/-- The statement `d(i, j) = v;`: the outcome and the final state. -/
def assign (self : MatrixDiagonal T) (i j : Nat) (v : T) :
    Except Error Unit × MatrixDiagonal T :=
  match self.operatorCall i j with
  | .error e => (.error e, self)
  | .ok r =>
    match store self.data v r with
    | .error e => (.error e, self)
    | .ok d => (.ok (), { self with data := d })

/-- The call `data.resize(k)`: the first `k` elements, padded with zeros. -/
def resize [Zero T] (data : List T) (k : Nat) : List T :=
  data.take k ++ List.replicate (k - data.length) 0

/-- The method `Import`; `file` is `none` when the path cannot be opened. -/
def Import [Zero T] (c : Codec T) (self : MatrixDiagonal T) (file : Option (List Char)) :
    Except Error Unit × MatrixDiagonal T :=
  match file with
  | none => (.error .runtime_error, self)
  | some text =>
    let rs := extract getUnsigned ⟨text, false⟩ self._size
    let buf := resize self.data rs.1
    let fin := (List.range rs.1).foldl (importStep c) (buf, rs.2)
    (.ok (), ⟨rs.1, fin.1⟩)

/-- One iteration of the loop of `Export`: `file << data[i] << " "`. -/
def exportCell (c : Codec T) (self : MatrixDiagonal T) (out : List Char) (i : Nat) :
    Except Error (List Char) :=
  match self.data[i]? with
  | none => .error .undefined_behaviour
  | some v => .ok (out ++ c.put v ++ [' '])

/-- The method `Export`: the text written to the file. -/
def Export (c : Codec T) (self : MatrixDiagonal T) (canOpen : Bool) : Except Error (List Char) :=
  if !canOpen then .error .runtime_error
  else (List.range self._size).foldlM (exportCell c self) (putUnsigned self._size ++ ['\n'])

end MatrixDiagonal

/-! ## Specification-side definitions -/

/-- The class invariant of `MatrixDense`: the dimensions are `unsigned` values
and the buffer has the length the constructor and `Import` allocate. -/
def MatrixDense.WF {T : Type} (M : MatrixDense T) : Prop :=
  M._m < UINT ∧ M._n < UINT ∧ M.data.length = (M._m * M._n) % UINT

/-- The class invariant of `MatrixDiagonal`: `data.size() == _size`. -/
def MatrixDiagonal.WF {T : Type} (D : MatrixDiagonal T) : Prop :=
  D._size < UINT ∧ D.data.length = D._size

/-- The dense class invariant can be checked. -/
instance MatrixDense.decWF {T : Type} (M : MatrixDense T) : Decidable M.WF := by
  unfold MatrixDense.WF
  exact inferInstance

/-- The diagonal class invariant can be checked. -/
instance MatrixDiagonal.decWF {T : Type} (D : MatrixDiagonal T) : Decidable D.WF := by
  unfold MatrixDiagonal.WF
  exact inferInstance

/-- The value `v` survives the text conversion: extraction from the text
written for `v`, followed by a blank, stores `v` and stops at the blank. -/
def Codec.Reads {T : Type} (c : Codec T) (v : T) : Prop :=
  ∀ (rest : List Char) (old : T),
    extract c.get ⟨c.put v ++ ' ' :: rest, false⟩ old = (v, ⟨' ' :: rest, false⟩)

/-- The text `text` holds the values `vs` as its first tokens: white space
may precede a token, and each token is the text written for a value that
survives the conversion, followed by a blank. -/
inductive Tokens {T : Type} (c : Codec T) : List T → List Char → Prop where
  | done (text : List Char) : Tokens c [] text
  | space (ch : Char) (vs : List T) (text : List Char) :
      isspace ch = true → Tokens c vs text → Tokens c vs (ch :: text)
  | token (v : T) (vs : List T) (text : List Char) :
      c.Reads v → Tokens c vs text → Tokens c (v :: vs) (c.put v ++ ' ' :: text)

/-- A line of the exported file as the specification words it: the cells
of one row in column order, each followed by a blank. -/
def rowLine {T : Type} (c : Codec T) (row : List T) : List Char :=
  row.flatMap (fun v => c.put v ++ [' '])

/-- The dense file as the specification words it: a first line `<m> <n>`,
then one line per row. -/
def denseText {T : Type} (c : Codec T) (m n : Nat) (rows : List (List T)) : List Char :=
  putUnsigned m ++ [' '] ++ putUnsigned n ++ ['\n'] ++
    rows.flatMap (fun row => rowLine c row ++ ['\n'])

/-- The diagonal file as the specification words it: a first line `<size>`,
then the diagonal entries on one line. -/
def diagonalText {T : Type} (c : Codec T) (size : Nat) (diag : List T) : List Char :=
  putUnsigned size ++ ['\n'] ++ rowLine c diag

/-- The rows of a row-major buffer: row `i` is the `n` cells from `i * n`. -/
def rowsOf {T : Type} (m n : Nat) (data : List T) : List (List T) :=
  (List.range m).map (fun i => (data.drop (i * n)).take n)

/-! ## Accessors: bounds, diagonal writes (C4, C5) -/

section Accessors

variable {T : Type}

/-- C4: on both variants and for both accessors, `at(i,j)` with `i >= m` or
`j >= n` throws `out_of_range`; on `MatrixDiagonal` this holds also when
`i != j`, so the bounds check comes before the off-diagonal check. -/
theorem at_out_of_range [Zero T] (M : MatrixDense T) (D : MatrixDiagonal T) (i j : Nat) :
    ((M._m ≤ i ∨ M._n ≤ j) →
      M.operatorCall i j = .error .out_of_range ∧
      M.operatorCallConst i j = .error .out_of_range ∧
      M.read i j = .error .out_of_range ∧
      ∀ v, M.assign i j v = (.error .out_of_range, M)) ∧
    ((D._size ≤ i ∨ D._size ≤ j) →
      D.operatorCall i j = .error .out_of_range ∧
      D.operatorCallConst i j = .error .out_of_range ∧
      D.read i j = .error .out_of_range ∧
      ∀ v, D.assign i j v = (.error .out_of_range, D)) := by
  constructor
  · intro h
    have h1 : M.operatorCall i j = .error .out_of_range := by
      simp [MatrixDense.operatorCall, h]
    have h2 : M.operatorCallConst i j = .error .out_of_range := by
      simp [MatrixDense.operatorCallConst, h]
    refine ⟨h1, h2, ?_, ?_⟩
    · simp [MatrixDense.read, h2]
    · intro v
      simp [MatrixDense.assign, h1]
  · intro h
    have h1 : D.operatorCall i j = .error .out_of_range := by
      simp [MatrixDiagonal.operatorCall, h]
    have h2 : D.operatorCallConst i j = .error .out_of_range := by
      simp [MatrixDiagonal.operatorCallConst, h]
    refine ⟨h1, h2, ?_, ?_⟩
    · simp [MatrixDiagonal.read, h2]
    · intro v
      simp [MatrixDiagonal.assign, h1]

/-- Witness for C4: a 2x2 dense matrix and a diagonal matrix of size 3, at (5,1),
which is out of bounds and off the diagonal. -/
theorem at_out_of_range_witness :
    (MatrixDense.new 2 2 : MatrixDense Int).operatorCall 5 1 = .error .out_of_range ∧
    (MatrixDiagonal.new 3 : MatrixDiagonal Int).operatorCall 5 1 = .error .out_of_range ∧
    (MatrixDiagonal.new 3 : MatrixDiagonal Int).operatorCallConst 5 1 = .error .out_of_range :=
  ⟨((at_out_of_range (MatrixDense.new 2 2 : MatrixDense Int)
      (MatrixDiagonal.new 3 : MatrixDiagonal Int) 5 1).1 (Or.inl (by decide))).1,
   ((at_out_of_range (MatrixDense.new 2 2 : MatrixDense Int)
      (MatrixDiagonal.new 3 : MatrixDiagonal Int) 5 1).2 (Or.inl (by decide))).1,
   ((at_out_of_range (MatrixDense.new 2 2 : MatrixDense Int)
      (MatrixDiagonal.new 3 : MatrixDiagonal Int) 5 1).2 (Or.inl (by decide))).2.1⟩

/-- The mutable accessor of `MatrixDiagonal` rejects every in-bounds
off-diagonal position with `invalid_argument`, and the assignment through it
leaves the object as it was. -/
theorem diagonal_write_off_diagonal (D : MatrixDiagonal T) (i j : Nat)
    (hi : i < D._size) (hj : j < D._size) (hij : i ≠ j) :
    D.operatorCall i j = .error .invalid_argument ∧
    ∀ v, D.assign i j v = (.error .invalid_argument, D) := by
  have h1 : D.operatorCall i j = .error .invalid_argument := by
    simp [MatrixDiagonal.operatorCall, hij]
    omega
  exact ⟨h1, fun v => by simp [MatrixDiagonal.assign, h1]⟩

/-- The const accessor of `MatrixDiagonal` at an in-bounds off-diagonal position
does not throw: it returns a reference to a temporary holding zero, and a read
through that reference is undefined. -/
theorem diagonal_read_off_diagonal [Zero T] (D : MatrixDiagonal T) (i j : Nat)
    (hi : i < D._size) (hj : j < D._size) (hij : i ≠ j) :
    D.operatorCallConst i j = .ok (.temporary 0) ∧
    D.read i j = .error .undefined_behaviour := by
  have h1 : D.operatorCallConst i j = .ok (.temporary 0) := by
    simp [MatrixDiagonal.operatorCallConst, hij]
    omega
  exact ⟨h1, by simp [MatrixDiagonal.read, h1, load]⟩

/-- C5, at the failing input: on the diagonal matrix of `Test` (size 3, diagonal
5, 10, 15) the write at (0,1) throws `invalid_argument` and changes nothing, as
claimed; the const read at (0,1) returns a reference to a destroyed temporary,
so the value read is undefined and not the claimed zero. -/
theorem diagonal_off_diagonal_read_dangles :
    (⟨3, [5, 10, 15]⟩ : MatrixDiagonal Int).assign 0 1 7 =
      (.error .invalid_argument, ⟨3, [5, 10, 15]⟩) ∧
    (⟨3, [5, 10, 15]⟩ : MatrixDiagonal Int).operatorCallConst 0 1 = .ok (.temporary 0) ∧
    (⟨3, [5, 10, 15]⟩ : MatrixDiagonal Int).read 0 1 = .error .undefined_behaviour ∧
    (⟨3, [5, 10, 15]⟩ : MatrixDiagonal Int).read 0 1 ≠ .ok 0 := by
  decide

end Accessors

/-! ## Import: files that cannot be opened, files that are too short (C6, C7) -/

section ImportErrors

variable {T : Type}

/-- C6: `Import` on a path that cannot be opened throws `runtime_error` and
leaves the dimensions and every stored cell as they were, on both variants. -/
theorem Import_unopenable [Zero T] (c : Codec T) (M : MatrixDense T) (D : MatrixDiagonal T)
    (fresh : Nat → T) :
    M.Import c none fresh = (.error .runtime_error, M) ∧
    D.Import c none = (.error .runtime_error, D) :=
  ⟨rfl, rfl⟩

/-- C7 refuted: a dense file with three values for a 2x2 header, a dense file
with a malformed second value, and a diagonal file with two values for size 3
are all imported without any error; the cells that were not read hold what the
new buffer held (here 77), the zero stored by the failed conversion, or the
zeros of `resize`. -/
theorem Import_short_file_returns :
    (MatrixDense.new 0 0 : MatrixDense Int).Import doubleCodec
        (some ("2 2\n1 2 3".toList)) (fun _ => 77) = (.ok (), ⟨2, 2, [1, 2, 3, 77]⟩) ∧
    (MatrixDense.new 0 0 : MatrixDense Int).Import doubleCodec
        (some ("2 2\n1 x 3 4".toList)) (fun _ => 77) = (.ok (), ⟨2, 2, [1, 0, 77, 77]⟩) ∧
    (MatrixDiagonal.new 0 : MatrixDiagonal Int).Import doubleCodec
        (some ("3\n1 2".toList)) = (.ok (), ⟨3, [1, 2, 0]⟩) := by
  decide

/-- C7 amended: `Import` of a file that can be opened returns normally whatever
the file holds, on both variants; no format error exists. (The allocation of
the new storage is taken to succeed.) -/
theorem Import_openable_returns [Zero T] (c : Codec T) (M : MatrixDense T)
    (D : MatrixDiagonal T) (text : List Char) (fresh : Nat → T) :
    (M.Import c (some text) fresh).1 = .ok () ∧ (D.Import c (some text)).1 = .ok () :=
  ⟨rfl, rfl⟩

end ImportErrors

/-! ## Row-major indexing in 32-bit arithmetic (C9, C10) -/

section Indexing

variable {T : Type}

/-- The constructor establishes the class invariant. -/
theorem dense_new_WF [Zero T] (m n : Nat) (hm : m < UINT) (hn : n < UINT) :
    (MatrixDense.new m n : MatrixDense T).WF := by
  simp [MatrixDense.new, MatrixDense.WF, hm, hn]

/-- Without overflow of `m * n`, the flat index of an in-bounds pair lies
inside the buffer. -/
theorem flat_index_lt (m n i j : Nat) (hi : i < m) (hj : j < n) : i * n + j < m * n := by
  have h : (i + 1) * n ≤ m * n := Nat.mul_le_mul_right n hi
  rw [Nat.add_mul] at h
  omega

/-- Without overflow of `m * n`, every in-bounds read of a well-formed dense
matrix succeeds and returns the cell at `i * n + j`. -/
theorem dense_read_eq (M : MatrixDense T) (hwf : M.WF) (hno : M._m * M._n < UINT)
    (i j : Nat) (hi : i < M._m) (hj : j < M._n) :
    ∃ h : i * M._n + j < M.data.length, M.read i j = .ok (M.data.get ⟨i * M._n + j, h⟩) := by
  have hlt := flat_index_lt M._m M._n i j hi hj
  have hlen : M.data.length = M._m * M._n := by
    rw [hwf.2.2, Nat.mod_eq_of_lt hno]
  have hk : i * M._n + j < M.data.length := by omega
  refine ⟨hk, ?_⟩
  have hmod : (i * M._n + j) % UINT = i * M._n + j := Nat.mod_eq_of_lt (by omega)
  have hnot : ¬ (M._m ≤ i ∨ M._n ≤ j) := by omega
  simp [MatrixDense.read, MatrixDense.operatorCallConst, hnot, hmod, load,
    List.getElem?_eq_getElem hk]

/-- C9, at the failing input: `MatrixDense(65536, 65536)` is well formed, its
buffer has `65536 * 65536 mod 2^32 = 0` cells, the accessor admits (0,0) and
returns a reference to `data[0]`, which is outside the buffer. -/
theorem dense_index_outside_buffer :
    (MatrixDense.new 65536 65536 : MatrixDense Int).WF ∧
    (MatrixDense.new 65536 65536 : MatrixDense Int).data.length = 0 ∧
    (MatrixDense.new 65536 65536 : MatrixDense Int).operatorCall 0 0 = .ok (.elem 0) ∧
    (MatrixDense.new 65536 65536 : MatrixDense Int).operatorCallConst 0 0 = .ok (.elem 0) ∧
    (MatrixDense.new 65536 65536 : MatrixDense Int).read 0 0 = .error .undefined_behaviour ∧
    ¬ ((0 * 65536 + 0) % UINT < (65536 * 65536) % UINT) := by
  decide

/-- C10, at the failing input: in `MatrixDense(2147483649, 2)`, whose buffer
has `2147483649 * 2 mod 2^32 = 2` cells, the in-bounds pairs (2147483648, 0)
and (0, 0) have the same flat index 0, so writing 1 at the first changes what
is read at the second from 0 to 1. -/
theorem dense_write_aliases :
    (MatrixDense.new 2147483649 2 : MatrixDense Int).WF ∧
    (MatrixDense.new 2147483649 2 : MatrixDense Int).read 0 0 = .ok 0 ∧
    (MatrixDense.new 2147483649 2 : MatrixDense Int).assign 2147483648 0 1 =
      (.ok (), ⟨2147483649, 2, [1, 0]⟩) ∧
    ((MatrixDense.new 2147483649 2 : MatrixDense Int).assign 2147483648 0 1).2.read 0 0 =
      .ok 1 := by
  decide

/-- Without overflow of `m * n`, the row-major map is injective on in-bounds pairs. -/
theorem flat_index_inj (n i j i2 j2 : Nat) (hj : j < n) (hj2 : j2 < n)
    (h : i * n + j = i2 * n + j2) : i = i2 ∧ j = j2 := by
  have hn : 0 < n := by omega
  have h1 : (i * n + j) / n = i := by
    rw [Nat.mul_comm, Nat.mul_add_div hn, Nat.div_eq_of_lt hj, Nat.add_zero]
  have h2 : (i2 * n + j2) / n = i2 := by
    rw [Nat.mul_comm, Nat.mul_add_div hn, Nat.div_eq_of_lt hj2, Nat.add_zero]
  have hi : i = i2 := by rw [← h1, ← h2, h]
  subst hi
  exact ⟨rfl, by omega⟩

/-- Without overflow of `m * n`, a write through the mutable accessor of a
well-formed dense matrix succeeds, keeps the dimensions, is read back at the
same position and leaves every other in-bounds position as it was. -/
theorem dense_assign_frame (M : MatrixDense T) (hwf : M.WF) (hno : M._m * M._n < UINT)
    (i j : Nat) (hi : i < M._m) (hj : j < M._n) (v : T) :
    ∃ M2, M.assign i j v = (.ok (), M2) ∧ M2._m = M._m ∧ M2._n = M._n ∧ M2.WF ∧
      M2.read i j = .ok v ∧
      ∀ i2 j2, i2 < M._m → j2 < M._n → (i2, j2) ≠ (i, j) → M2.read i2 j2 = M.read i2 j2 := by
  have hlt := flat_index_lt M._m M._n i j hi hj
  have hlen : M.data.length = M._m * M._n := by
    rw [hwf.2.2, Nat.mod_eq_of_lt hno]
  have hk : i * M._n + j < M.data.length := by omega
  have hmod : (i * M._n + j) % UINT = i * M._n + j := Nat.mod_eq_of_lt (by omega)
  have hnot : ¬ (M._m ≤ i ∨ M._n ≤ j) := by omega
  refine ⟨⟨M._m, M._n, M.data.set (i * M._n + j) v⟩, ?_, rfl, rfl, ?_, ?_, ?_⟩
  · simp [MatrixDense.assign, MatrixDense.operatorCall, hnot, hmod, store, hk]
  · exact ⟨hwf.1, hwf.2.1, by simpa using hwf.2.2⟩
  · simp [MatrixDense.read, MatrixDense.operatorCallConst, hnot, hmod, load, hk]
  · intro i2 j2 hi2 hj2 hne
    have hlt2 := flat_index_lt M._m M._n i2 j2 hi2 hj2
    have hmod2 : (i2 * M._n + j2) % UINT = i2 * M._n + j2 := Nat.mod_eq_of_lt (by omega)
    have hnot2 : ¬ (M._m ≤ i2 ∨ M._n ≤ j2) := by omega
    have hidx : i * M._n + j ≠ i2 * M._n + j2 := by
      intro h
      have := flat_index_inj M._n i j i2 j2 hj hj2 h
      exact hne (by rw [this.1, this.2])
    simp [MatrixDense.read, MatrixDense.operatorCallConst, hnot2, hmod2, load,
      List.getElem?_set_ne hidx]

end Indexing

/-! ## Addition (C3) -/

section Addition

variable {T : Type}

/-- The loop of `operator+` after `k` iterations: the buffer keeps its length
and its first `k` cells are the sums. -/
theorem plusLoop_spec [Add T] (a b r0 : List T) (len : Nat) (ha : a.length = len)
    (hb : b.length = len) (hr : r0.length = len) (k : Nat) (hk : k ≤ len) :
    ∃ r, (List.range k).foldl (MatrixDense.plusStep a b) (.ok r0) = .ok r ∧ r.length = len ∧
      ∀ i, i < k → r[i]? = (List.zipWith (fun x y => x + y) a b)[i]? := by
  induction k with
  | zero => exact ⟨r0, rfl, hr, fun i hi => absurd hi (Nat.not_lt_zero i)⟩
  | succ k ih =>
    obtain ⟨r, hfold, hlen, hcells⟩ := ih (by omega)
    have hka : k < a.length := by omega
    have hkb : k < b.length := by omega
    have hkr : k < r.length := by omega
    refine ⟨r.set k (a[k] + b[k]), ?_, by simpa using hlen, ?_⟩
    · rw [List.range_succ, List.foldl_append, hfold]
      simp [MatrixDense.plusStep, List.getElem?_eq_getElem hka, List.getElem?_eq_getElem hkb, hkr]
    · intro i hi
      by_cases hik : i = k
      · subst hik
        rw [List.getElem?_set_self hkr, List.getElem?_zipWith]
        simp [List.getElem?_eq_getElem hka, List.getElem?_eq_getElem hkb]
      · rw [List.getElem?_set_ne (Ne.symm hik)]
        exact hcells i (by omega)

/-- On well-formed operands of equal dimensions the loop of `operator+` fills
the local `result` with the cell-wise sums, and the caller receives that
object when the copy on return is elided, and a freed buffer when it is not. -/
theorem dense_operatorPlus_data [Zero T] [Add T] (elided : Bool) (A B : MatrixDense T)
    (hA : A.WF) (hB : B.WF) (hm : A._m = B._m) (hn : A._n = B._n) :
    A.operatorPlus elided B =
      .ok (returnLocal elided ⟨A._m, A._n, List.zipWith (fun x y => x + y) A.data B.data⟩) := by
  have hb : B.data.length = (A._m * A._n) % UINT := by rw [hB.2.2, hm, hn]
  obtain ⟨r, hfold, hlen, hcells⟩ := plusLoop_spec A.data B.data
    (List.replicate ((A._m * A._n) % UINT) 0) ((A._m * A._n) % UINT) hA.2.2 hb
    (by simp) ((A._m * A._n) % UINT) (Nat.le_refl _)
  have hr : r = List.zipWith (fun x y => x + y) A.data B.data := by
    apply List.ext_getElem?
    intro i
    by_cases hi : i < (A._m * A._n) % UINT
    · exact hcells i hi
    · rw [List.getElem?_eq_none (by omega), List.getElem?_eq_none]
      simp [hA.2.2, hb]
      omega
  have hdims : ¬ (A._m ≠ B._m ∨ A._n ≠ B._n) := by
    simp [hm, hn]
  simp only [MatrixDense.operatorPlus, hdims, if_false, MatrixDense.new]
  rw [hfold, hr]

/-- Operands of different dimensions make `operator+` throw `invalid_argument`. -/
theorem dense_operatorPlus_mismatch [Zero T] [Add T] (elided : Bool) (A B : MatrixDense T)
    (h : A._m ≠ B._m ∨ A._n ≠ B._n) : A.operatorPlus elided B = .error .invalid_argument := by
  simp [MatrixDense.operatorPlus, h]

/-- What `operator+` does achieve: when the copy on return is elided and
`m * n` does not overflow, the sum of well-formed operands of equal dimensions
has the same dimensions and every in-bounds cell reads as the sum of the
operands' cells. -/
theorem dense_operatorPlus_cells [Zero T] [Add T] (A B : MatrixDense T) (hA : A.WF)
    (hB : B.WF) (hm : A._m = B._m) (hn : A._n = B._n) (hno : A._m * A._n < UINT) :
    ∃ R : MatrixDense T, A.operatorPlus true B = .ok (.intact R) ∧ R._m = A._m ∧
      R._n = A._n ∧ R.WF ∧
      ∀ i j, i < A._m → j < A._n →
        ∃ a b, A.read i j = .ok a ∧ B.read i j = .ok b ∧
          (Returned.intact R).read i j = .ok (a + b) := by
  have hb : B.data.length = (A._m * A._n) % UINT := by rw [hB.2.2, hm, hn]
  have hRwf : (⟨A._m, A._n, List.zipWith (fun x y => x + y) A.data B.data⟩ :
      MatrixDense T).WF := by
    refine ⟨hA.1, hA.2.1, ?_⟩
    simp [hA.2.2, hb]
  refine ⟨_, dense_operatorPlus_data true A B hA hB hm hn, rfl, rfl, hRwf, ?_⟩
  intro i j hi hj
  obtain ⟨ha1, ha2⟩ := dense_read_eq A hA hno i j hi hj
  obtain ⟨hb1, hb2⟩ := dense_read_eq B hB (by rw [← hm, ← hn]; exact hno) i j
    (by omega) (by omega)
  obtain ⟨hr1, hr2⟩ := dense_read_eq
    (⟨A._m, A._n, List.zipWith (fun x y => x + y) A.data B.data⟩ : MatrixDense T) hRwf hno
    i j hi hj
  refine ⟨_, _, ha2, hb2, ?_⟩
  show MatrixDense.read _ i j = _
  rw [hr2]
  simp only [List.get_eq_getElem, List.getElem_zipWith, ← hn]

/-- C3, at the failing inputs. The parts of the claim that hold: a 3x3 operand
added to a 2x2 one throws `invalid_argument`, and with the copy on return
elided `[[1,2],[3,4]] + [[5,6],[7,8]]` is `[[6,8],[10,12]]`. The parts that
fail: (a) for the well-formed operands `MatrixDense(65536, 65536)` the sum is
returned with an empty buffer, so its in-bounds cell (0,0) cannot be read;
(b) when the copy on return is not elided, the caller of
`[[1,2],[3,4]] + [[5,6],[7,8]]` receives the dimensions 2x2 with a freed
buffer, and the read of cell (0,0) is undefined, not 6. -/
theorem operatorPlus_result_unreadable :
    ((⟨2, 2, [1, 2, 3, 4]⟩ : MatrixDense Int).operatorPlus true (MatrixDense.new 3 3) =
        .error .invalid_argument ∧
      (⟨2, 2, [1, 2, 3, 4]⟩ : MatrixDense Int).operatorPlus false (MatrixDense.new 3 3) =
        .error .invalid_argument ∧
      (⟨2, 2, [1, 2, 3, 4]⟩ : MatrixDense Int).operatorPlus true ⟨2, 2, [5, 6, 7, 8]⟩ =
        .ok (.intact ⟨2, 2, [6, 8, 10, 12]⟩)) ∧
    ((MatrixDense.new 65536 65536 : MatrixDense Int).WF ∧
      (MatrixDense.new 65536 65536 : MatrixDense Int).operatorPlus true
          (MatrixDense.new 65536 65536) = .ok (.intact ⟨65536, 65536, []⟩) ∧
      (Returned.intact ⟨65536, 65536, []⟩ : Returned Int).read 0 0 =
        .error .undefined_behaviour) ∧
    ((⟨2, 2, [1, 2, 3, 4]⟩ : MatrixDense Int).WF ∧ (⟨2, 2, [5, 6, 7, 8]⟩ : MatrixDense Int).WF ∧
      (⟨2, 2, [1, 2, 3, 4]⟩ : MatrixDense Int).operatorPlus false ⟨2, 2, [5, 6, 7, 8]⟩ =
        .ok (.freed 2 2) ∧
      (Returned.freed 2 2 : Returned Int).read 0 0 = .error .undefined_behaviour ∧
      (Returned.freed 2 2 : Returned Int).read 0 0 ≠ .ok 6) := by
  decide

end Addition

/-! ## Text conversion of `unsigned` -/

section Digits

/-- A decimal digit is written as a digit character of that value, which is
not white space. -/
theorem digitChar_spec (d : Nat) (hd : d < 10) :
    (Nat.digitChar d).isDigit = true ∧ digitVal (Nat.digitChar d) = d ∧
      isspace (Nat.digitChar d) = false := by
  interval_cases d <;> decide

/-- Appending one digit to a digit string. -/
theorem natOf_append_singleton (ds : List Char) (c : Char) :
    natOf (ds ++ [c]) = natOf ds * 10 + digitVal c := by
  simp [natOf, List.foldl_append]

/-- The digits produced for `k` with enough fuel: a non-empty string of digit
characters whose decimal value is `k`. -/
theorem toDigitsCore_spec : ∀ (fuel k : Nat) (acc : List Char), k < fuel →
    ∃ ds, Nat.toDigitsCore 10 fuel k acc = ds ++ acc ∧ ds ≠ [] ∧
      (∀ c ∈ ds, c.isDigit = true ∧ isspace c = false) ∧ natOf ds = k := by
  intro fuel
  induction fuel with
  | zero => intro k acc h; omega
  | succ f ih =>
    intro k acc hk
    have hd := digitChar_spec (k % 10) (Nat.mod_lt _ (by decide))
    by_cases h0 : k / 10 = 0
    · refine ⟨[Nat.digitChar (k % 10)], ?_, by simp, ?_, ?_⟩
      · simp [Nat.toDigitsCore, h0]
      · intro c hc
        rw [List.mem_singleton] at hc
        subst hc
        exact ⟨hd.1, hd.2.2⟩
      · have := natOf_append_singleton [] (Nat.digitChar (k % 10))
        simp only [List.nil_append] at this
        rw [this, hd.2.1]
        simp [natOf]
        omega
    · obtain ⟨ds, h1, _, h3, h4⟩ := ih (k / 10) (Nat.digitChar (k % 10) :: acc) (by omega)
      refine ⟨ds ++ [Nat.digitChar (k % 10)], ?_, by simp, ?_, ?_⟩
      · simp [Nat.toDigitsCore, h0, h1]
      · intro c hc
        rw [List.mem_append, List.mem_singleton] at hc
        rcases hc with hc | hc
        · exact h3 c hc
        · subst hc
          exact ⟨hd.1, hd.2.2⟩
      · rw [natOf_append_singleton, h4, hd.2.1]
        omega

/-- The text written for an `unsigned`: a non-empty string of digit
characters whose decimal value is the number. -/
theorem putUnsigned_spec (k : Nat) :
    putUnsigned k ≠ [] ∧ (∀ c ∈ putUnsigned k, c.isDigit = true ∧ isspace c = false) ∧
      natOf (putUnsigned k) = k := by
  obtain ⟨ds, h1, h2, h3, h4⟩ := toDigitsCore_spec (k + 1) k [] (Nat.lt_succ_self k)
  have h : putUnsigned k = ds := by
    simp [putUnsigned, Nat.toDigits, h1]
  rw [h]
  exact ⟨h2, h3, h4⟩

/-- Extraction skips a leading white-space character. -/
theorem extract_skip {T : Type} (get : List Char → T × List Char × Bool) (ch : Char)
    (h : isspace ch = true) (t : List Char) (old : T) :
    extract get ⟨ch :: t, false⟩ old = extract get ⟨t, false⟩ old := by
  simp [extract, List.dropWhile_cons, h]

/-- Extraction of an `unsigned` from the text written for `k`, followed by a
character that is not a digit, stores `k` and stops at that character. -/
theorem extract_putUnsigned (k : Nat) (hk : k < UINT) (sep : Char)
    (hsep : sep.isDigit = false) (rest : List Char) (old : Nat) :
    extract getUnsigned ⟨putUnsigned k ++ sep :: rest, false⟩ old =
      (k, ⟨sep :: rest, false⟩) := by
  obtain ⟨h1, h2, h3⟩ := putUnsigned_spec k
  have hdig : ∀ c ∈ putUnsigned k, c.isDigit = true := fun c hc => (h2 c hc).1
  have htake : (putUnsigned k ++ sep :: rest).takeWhile Char.isDigit = putUnsigned k := by
    rw [List.takeWhile_append_of_pos hdig, List.takeWhile_cons]
    simp [hsep]
  have hdrop : (putUnsigned k ++ sep :: rest).dropWhile Char.isDigit = sep :: rest := by
    rw [List.dropWhile_append_of_pos hdig, List.dropWhile_cons]
    simp [hsep]
  have hget : getUnsigned (putUnsigned k ++ sep :: rest) = (k, sep :: rest, false) := by
    unfold getUnsigned
    simp only [htake, hdrop]
    cases hds : putUnsigned k with
    | nil => exact absurd hds h1
    | cons c t =>
      simp only
      rw [← hds, h3]
      simp [hk]
  cases hds : putUnsigned k with
  | nil => exact absurd hds h1
  | cons c t =>
    have hc : isspace c = false := (h2 c (by rw [hds]; exact List.mem_cons_self c t)).2
    rw [hds] at hget
    simp only [extract, List.cons_append, List.dropWhile_cons, hc]
    simp only [List.cons_append] at hget
    simp [hget]

/-- Every `unsigned` value survives the `unsigned` text conversion. -/
theorem unsignedCodec_reads (k : Nat) (hk : k < UINT) : unsignedCodec.Reads k := by
  intro rest old
  exact extract_putUnsigned k hk ' ' (by decide) rest old

end Digits

/-! ## The read loop of `Import` -/

section ReadLoop

variable {T : Type}

/-- One iteration of the read loop skips a leading white-space character. -/
theorem importStep_skip (c : Codec T) (buf : List T) (ch : Char) (h : isspace ch = true)
    (t : List Char) (i : Nat) (hi : i < buf.length) :
    importStep c (buf, ⟨ch :: t, false⟩) i = importStep c (buf, ⟨t, false⟩) i := by
  simp [importStep, List.getElem?_eq_getElem hi, extract_skip c.get ch h t]

/-- The buffer the read loop produces is not affected by a leading white-space character. -/
theorem importLoop_skip (c : Codec T) (buf : List T) (ch : Char) (h : isspace ch = true)
    (t : List Char) (k n : Nat) (hk : k + n ≤ buf.length) :
    ((List.range' k n).foldl (importStep c) (buf, ⟨ch :: t, false⟩)).1 =
      ((List.range' k n).foldl (importStep c) (buf, ⟨t, false⟩)).1 := by
  cases n with
  | zero => rfl
  | succ n =>
    rw [List.range'_succ, List.foldl_cons, List.foldl_cons,
      importStep_skip c buf ch h t k (by omega)]

/-- Overwriting cell `k` and keeping the first `k + 1` cells. -/
theorem take_succ_set (buf : List T) (k : Nat) (v : T) (hk : k < buf.length) :
    (buf.set k v).take (k + 1) = buf.take k ++ [v] := by
  rw [List.take_succ, List.getElem?_set_self hk]
  have : (buf.set k v).take k = buf.take k := by
    apply List.ext_getElem?
    intro i
    by_cases hi : i < k
    · rw [List.getElem?_take_of_lt hi, List.getElem?_take_of_lt hi,
        List.getElem?_set_ne (by omega)]
    · rw [List.getElem?_take_eq_none (by omega), List.getElem?_take_eq_none (by omega)]
  rw [this]
  rfl

/-- The read loop over a text that holds the values `vs` as its first tokens
stores exactly `vs` into the cells `k, k+1, ...` and leaves the others. -/
theorem importLoop_tokens (c : Codec T) (vs : List T) (text : List Char)
    (h : Tokens c vs text) : ∀ (k : Nat) (buf : List T), k + vs.length ≤ buf.length →
    ((List.range' k vs.length).foldl (importStep c) (buf, ⟨text, false⟩)).1 =
      buf.take k ++ vs ++ buf.drop (k + vs.length) := by
  induction h with
  | done text =>
    intro k buf _
    simp
  | space ch vs text hch _ ih =>
    intro k buf hk
    rw [importLoop_skip c buf ch hch text k vs.length hk]
    exact ih k buf hk
  | token v vs text hv _ ih =>
    intro k buf hk
    have hlen : (v :: vs).length = vs.length + 1 := rfl
    have hkb : k < buf.length := by omega
    rw [hlen, List.range'_succ, List.foldl_cons]
    have hstep : importStep c (buf, ⟨c.put v ++ ' ' :: text, false⟩) k =
        (buf.set k v, ⟨' ' :: text, false⟩) := by
      simp [importStep, List.getElem?_eq_getElem hkb, hv text (buf[k])]
    rw [hstep, importLoop_skip c _ ' ' (by decide) text (k + 1) vs.length (by simp; omega),
      ih (k + 1) (buf.set k v) (by simp; omega), take_succ_set buf k v hkb,
      List.drop_set_of_lt v buf (by omega)]
    have : k + 1 + vs.length = k + (vs.length + 1) := by omega
    rw [this]
    simp

/-- The line written for a row holds the row's values as tokens. -/
theorem tokens_rowLine (c : Codec T) (row : List T) (hrow : ∀ v ∈ row, c.Reads v)
    (vs : List T) (text : List Char) (h : Tokens c vs text) :
    Tokens c (row ++ vs) (rowLine c row ++ text) := by
  induction row with
  | nil => simpa [rowLine] using h
  | cons v row ih =>
    have hrest := ih (fun w hw => hrow w (List.mem_cons_of_mem v hw))
    have htxt : rowLine c (v :: row) ++ text = c.put v ++ ' ' :: (rowLine c row ++ text) := by
      simp [rowLine]
    rw [htxt]
    exact Tokens.token v (row ++ vs) _ (hrow v (List.mem_cons_self v row)) hrest

/-- The lines written for the rows hold all the cells, row after row, as tokens. -/
theorem tokens_rows (c : Codec T) (rows : List (List T))
    (hrows : ∀ row ∈ rows, ∀ v ∈ row, c.Reads v) :
    Tokens c rows.flatten (rows.flatMap (fun row => rowLine c row ++ ['\n'])) := by
  induction rows with
  | nil => exact Tokens.done _
  | cons row rows ih =>
    have hrest := ih (fun r hr => hrows r (List.mem_cons_of_mem row hr))
    have htxt : (row :: rows).flatMap (fun row => rowLine c row ++ ['\n']) =
        rowLine c row ++ '\n' :: rows.flatMap (fun row => rowLine c row ++ ['\n']) := by
      simp
    rw [htxt, List.flatten_cons]
    exact tokens_rowLine c row (hrows row (List.mem_cons_self row rows)) _ _
      (Tokens.space '\n' _ _ (by decide) hrest)

/-- The rows of a buffer, concatenated, are its first `m * n` cells. -/
theorem rowsOf_flatten (n : Nat) (data : List T) (m : Nat) :
    (rowsOf m n data).flatten = data.take (m * n) := by
  induction m with
  | zero => simp [rowsOf]
  | succ m ih =>
    have : rowsOf (m + 1) n data = rowsOf m n data ++ [(data.drop (m * n)).take n] := by
      simp [rowsOf, List.range_succ]
    rw [this, List.flatten_append, ih, Nat.succ_mul, List.take_add]
    simp

end ReadLoop

/-! ## Dense export and the round trip (C1, C8) -/

section DenseFile

variable {T : Type}

/-- The line written for a row extended by one cell. -/
theorem rowLine_append_singleton (c : Codec T) (row : List T) (v : T) :
    rowLine c (row ++ [v]) = rowLine c row ++ c.put v ++ [' '] := by
  simp [rowLine]

/-- Without overflow, the inner loop of `Export` appends the line of the
first `k` cells of row `i`. -/
theorem exportCells_ok (c : Codec T) (M : MatrixDense T) (hwf : M.WF)
    (hno : M._m * M._n < UINT) (i : Nat) (hi : i < M._m) (out : List Char) (k : Nat)
    (hk : k ≤ M._n) :
    (List.range k).foldlM (MatrixDense.exportCell c M i) out =
      .ok (out ++ rowLine c ((M.data.drop (i * M._n)).take k)) := by
  induction k with
  | zero => simp [rowLine]; rfl
  | succ k ih =>
    obtain ⟨hlt, hread⟩ := dense_read_eq M hwf hno i k hi (by omega)
    have hcell : (M.data.drop (i * M._n))[k]? = some (M.data.get ⟨i * M._n + k, hlt⟩) := by
      rw [List.getElem?_drop, List.getElem?_eq_getElem hlt]
      rfl
    rw [List.range_succ, List.foldlM_append, ih (by omega), List.take_succ, hcell]
    simp only [Option.toList, rowLine_append_singleton]
    show (List.foldlM (MatrixDense.exportCell c M i) _ [k] : Except Error (List Char)) = _
    simp only [List.foldlM, MatrixDense.exportCell, hread]
    simp [List.append_assoc]

/-- Without overflow, the outer loop of `Export` appends the lines of the first `k` rows. -/
theorem exportRows_ok (c : Codec T) (M : MatrixDense T) (hwf : M.WF)
    (hno : M._m * M._n < UINT) (out : List Char) (k : Nat) (hk : k ≤ M._m) :
    (List.range k).foldlM (MatrixDense.exportRow c M) out =
      .ok (out ++ (rowsOf k M._n M.data).flatMap (fun row => rowLine c row ++ ['\n'])) := by
  induction k with
  | zero => simp [rowsOf]; rfl
  | succ k ih =>
    have hrows : rowsOf (k + 1) M._n M.data =
        rowsOf k M._n M.data ++ [(M.data.drop (k * M._n)).take M._n] := by
      simp [rowsOf, List.range_succ]
    rw [List.range_succ, List.foldlM_append, ih (by omega), hrows]
    show (List.foldlM (MatrixDense.exportRow c M) _ [k] : Except Error (List Char)) = _
    simp only [List.foldlM, MatrixDense.exportRow,
      exportCells_ok c M hwf hno k (by omega) _ M._n (Nat.le_refl _)]
    simp [List.append_assoc]

/-- Without overflow, `Export` of a well-formed dense matrix succeeds and writes
the dense file of its rows. -/
theorem dense_Export_ok (c : Codec T) (M : MatrixDense T) (hwf : M.WF)
    (hno : M._m * M._n < UINT) :
    M.Export c true = .ok (denseText c M._m M._n (rowsOf M._m M._n M.data)) := by
  simp only [MatrixDense.Export, Bool.not_true, Bool.false_eq_true, if_false]
  rw [exportRows_ok c M hwf hno _ M._m (Nat.le_refl _)]
  rfl

/-- Importing a dense file `<m> <n>` followed by rows that hold `m * n` values
in all, each of which survives the text conversion, yields the `m` x `n`
matrix of these values in row-major order, whatever the matrix held before. -/
theorem dense_Import_denseText (c : Codec T) (other : MatrixDense T) (fresh : Nat → T)
    (m n : Nat) (hm : m < UINT) (hn : n < UINT) (hno : m * n < UINT) (rows : List (List T))
    (hlen : rows.flatten.length = m * n) (hreads : ∀ row ∈ rows, ∀ v ∈ row, c.Reads v) :
    other.Import c (some (denseText c m n rows)) fresh = (.ok (), ⟨m, n, rows.flatten⟩) := by
  have htext : denseText c m n rows = putUnsigned m ++ ' ' ::
      (putUnsigned n ++ '\n' :: rows.flatMap (fun row => rowLine c row ++ ['\n'])) := by
    simp [denseText]
  have h1 := extract_putUnsigned m hm ' ' (by decide)
    (putUnsigned n ++ '\n' :: rows.flatMap (fun row => rowLine c row ++ ['\n'])) other._m
  have h2 : extract getUnsigned
      ⟨' ' :: (putUnsigned n ++ '\n' :: rows.flatMap (fun row => rowLine c row ++ ['\n'])),
        false⟩ other._n =
      (n, ⟨'\n' :: rows.flatMap (fun row => rowLine c row ++ ['\n']), false⟩) := by
    rw [extract_skip getUnsigned ' ' (by decide)]
    exact extract_putUnsigned n hn '\n' (by decide) _ _
  have htok : Tokens c rows.flatten
      ('\n' :: rows.flatMap (fun row => rowLine c row ++ ['\n'])) :=
    Tokens.space '\n' _ _ (by decide) (tokens_rows c rows hreads)
  have hloop := importLoop_tokens c rows.flatten _ htok 0 ((List.range (m * n)).map fresh)
    (by simp [hlen])
  simp only [MatrixDense.Import, htext, h1, h2, Nat.mod_eq_of_lt hno]
  rw [List.range_eq_range', ← hlen]
  rw [List.range_eq_range', ← hlen] at hloop
  rw [hloop]
  simp

/-- Without overflow, a well-formed dense matrix whose cell values survive the
text conversion is exported as the dense file of its rows, and that file is
imported as the matrix itself. -/
theorem dense_export_import (c : Codec T) (M other : MatrixDense T) (fresh : Nat → T)
    (hwf : M.WF) (hno : M._m * M._n < UINT) (hreads : ∀ v ∈ M.data, c.Reads v) :
    M.Export c true = .ok (denseText c M._m M._n (rowsOf M._m M._n M.data)) ∧
    other.Import c (some (denseText c M._m M._n (rowsOf M._m M._n M.data))) fresh =
      (.ok (), M) := by
  have hlen : M.data.length = M._m * M._n := by
    rw [hwf.2.2, Nat.mod_eq_of_lt hno]
  have hflat : (rowsOf M._m M._n M.data).flatten = M.data := by
    rw [rowsOf_flatten, ← hlen, List.take_length]
  have himp := dense_Import_denseText c other fresh M._m M._n hwf.1 hwf.2.1 hno
    (rowsOf M._m M._n M.data) (by rw [hflat, hlen])
    (by
      intro row hrow v hv
      exact hreads v (by rw [← hflat]; exact List.mem_flatten.mpr ⟨row, hrow, hv⟩))
  rw [hflat] at himp
  exact ⟨dense_Export_ok c M hwf hno, himp⟩

/-- C1 amended: for every well-formed dense matrix `M` whose `m * n` does not
overflow and whose cell values all survive the text conversion, `Export`
succeeds, and importing the exported text into any dense matrix yields exactly
`M`: the same `m` and `n`, and every in-bounds cell reads as it does in `M`. -/
theorem dense_roundtrip (c : Codec T) (M other : MatrixDense T) (fresh : Nat → T)
    (hwf : M.WF) (hno : M._m * M._n < UINT) (hreads : ∀ v ∈ M.data, c.Reads v) :
    ∃ text, M.Export c true = .ok text ∧
      other.Import c (some text) fresh = (.ok (), M) ∧
      ((other.Import c (some text) fresh).2._m = M._m ∧
        (other.Import c (some text) fresh).2._n = M._n) ∧
      ∀ i j, i < M._m → j < M._n →
        ∃ v, M.read i j = .ok v ∧ (other.Import c (some text) fresh).2.read i j = .ok v := by
  obtain ⟨hexp, himp⟩ := dense_export_import c M other fresh hwf hno hreads
  refine ⟨_, hexp, himp, by rw [himp]; exact ⟨rfl, rfl⟩, ?_⟩
  intro i j hi hj
  obtain ⟨hlt, hread⟩ := dense_read_eq M hwf hno i j hi hj
  exact ⟨_, hread, by rw [himp]; exact hread⟩

/-- Witness for C1 amended: the 2x2 matrix with cells 1, 2, 3, 4 row-major,
exported and imported into a fresh 0x0 matrix. -/
theorem dense_roundtrip_witness :
    (⟨2, 2, [1, 2, 3, 4]⟩ : MatrixDense Int).Export doubleCodec true =
      .ok ("2 2\n1 2 \n3 4 \n".toList) ∧
    ∃ text, (⟨2, 2, [1, 2, 3, 4]⟩ : MatrixDense Int).Export doubleCodec true = .ok text ∧
      (MatrixDense.new 0 0 : MatrixDense Int).Import doubleCodec (some text) (fun _ => 0) =
        (.ok (), ⟨2, 2, [1, 2, 3, 4]⟩) ∧
      (((MatrixDense.new 0 0 : MatrixDense Int).Import doubleCodec (some text)
          (fun _ => 0)).2._m = 2 ∧
        ((MatrixDense.new 0 0 : MatrixDense Int).Import doubleCodec (some text)
          (fun _ => 0)).2._n = 2) ∧
      ∀ i j, i < 2 → j < 2 →
        ∃ v, (⟨2, 2, [1, 2, 3, 4]⟩ : MatrixDense Int).read i j = .ok v ∧
          ((MatrixDense.new 0 0 : MatrixDense Int).Import doubleCodec (some text)
            (fun _ => 0)).2.read i j = .ok v :=
  ⟨by decide,
    dense_roundtrip doubleCodec (⟨2, 2, [1, 2, 3, 4]⟩ : MatrixDense Int) (MatrixDense.new 0 0)
      (fun _ => 0) (by decide) (by decide)
      (by
        intro v hv
        simp only [List.mem_cons, List.mem_singleton, List.not_mem_nil, or_false] at hv
        rcases hv with h | h | h | h <;> subst h <;> intro rest old <;> rfl)⟩

/-- When the first cell cannot be read, `Export` of a matrix with at least one
row and one column fails with the error of that read. -/
theorem dense_Export_first_read_fails (c : Codec T) (M : MatrixDense T) (e : Error)
    (hm : 1 ≤ M._m) (hn : 1 ≤ M._n) (h : M.read 0 0 = .error e) :
    M.Export c true = .error e := by
  obtain ⟨m, hm2⟩ : ∃ m, M._m = m + 1 := ⟨M._m - 1, by omega⟩
  obtain ⟨n, hn2⟩ : ∃ n, M._n = n + 1 := ⟨M._n - 1, by omega⟩
  have hrow : ∀ out, MatrixDense.exportRow c M out 0 = .error e := by
    intro out
    simp only [MatrixDense.exportRow, hn2, List.range_succ_eq_map, List.foldlM_cons,
      MatrixDense.exportCell, h]
    rfl
  simp only [MatrixDense.Export, Bool.not_true, Bool.false_eq_true, if_false, hm2,
    List.range_succ_eq_map, List.foldlM_cons, hrow]
  rfl

/-- C1 refuted. (a) The well-formed 1x1 matrix holding 1234567 is exported as
`1.23457e+06` and comes back as 1234570. (b) The matrix constructed by
`MatrixDense(65536, 65536)` has an empty buffer, and `Export` reads outside it
at the first cell and produces no text. -/
theorem dense_roundtrip_fails :
    ((⟨1, 1, [1234567]⟩ : MatrixDense Int).WF ∧
      (⟨1, 1, [1234567]⟩ : MatrixDense Int).Export doubleCodec true =
        .ok ("1 1\n1.23457e+06 \n".toList) ∧
      (MatrixDense.new 0 0 : MatrixDense Int).Import doubleCodec
        (some ("1 1\n1.23457e+06 \n".toList)) (fun _ => 0) = (.ok (), ⟨1, 1, [1234570]⟩) ∧
      (⟨1, 1, [1234567]⟩ : MatrixDense Int).read 0 0 = .ok 1234567 ∧
      (⟨1, 1, [1234570]⟩ : MatrixDense Int).read 0 0 = .ok 1234570) ∧
    ((MatrixDense.new 65536 65536 : MatrixDense Int).WF ∧
      (MatrixDense.new 65536 65536 : MatrixDense Int).Export doubleCodec true =
        .error .undefined_behaviour) :=
  ⟨by decide, by decide,
    dense_Export_first_read_fails doubleCodec _ _ (by decide) (by decide) (by decide)⟩

end DenseFile

/-! ## The layout of the dense file (C8) -/

section DenseLayout

variable {T : Type}

/-- When the inner loop of `Export` succeeds, what it appended is the line of
the first `k` cells of row `i`, each read through the accessor. -/
theorem exportCells_inv (c : Codec T) (M : MatrixDense T) (i : Nat) :
    ∀ (k : Nat) (out res : List Char),
      (List.range k).foldlM (MatrixDense.exportCell c M i) out = .ok res →
      ∃ vs : List T, vs.length = k ∧
        (∀ j, j < k → ∃ v, vs[j]? = some v ∧ M.read i j = .ok v) ∧
        res = out ++ rowLine c vs := by
  intro k
  induction k with
  | zero =>
    intro out res h
    refine ⟨[], rfl, fun j hj => absurd hj (Nat.not_lt_zero j), ?_⟩
    have h2 : (Except.ok out : Except Error (List Char)) = .ok res := h
    cases h2
    simp [rowLine]
  | succ k ih =>
    intro out res h
    rw [List.range_succ, List.foldlM_append] at h
    cases hfold : (List.range k).foldlM (MatrixDense.exportCell c M i) out with
    | error e =>
      rw [hfold] at h
      cases h
    | ok o =>
      rw [hfold] at h
      obtain ⟨vs, hlen, hcells, ho⟩ := ih out o hfold
      have h2 : MatrixDense.exportCell c M i o k = .ok res := by
        have h3 : (MatrixDense.exportCell c M i o k >>= fun x => pure x) = .ok res := h
        rw [bind_pure] at h3
        exact h3
      unfold MatrixDense.exportCell at h2
      cases hread : M.read i k with
      | error e =>
        rw [hread] at h2
        cases h2
      | ok v =>
        rw [hread] at h2
        cases h2
        refine ⟨vs ++ [v], by simp [hlen], ?_, ?_⟩
        · intro j hj
          by_cases hjk : j < k
          · obtain ⟨w, hw1, hw2⟩ := hcells j hjk
            exact ⟨w, by rw [List.getElem?_append_left (by omega)]; exact hw1, hw2⟩
          · have hjeq : j = k := by omega
            subst hjeq
            exact ⟨v, by rw [List.getElem?_append_right (by omega)]; simp [hlen], hread⟩
        · rw [ho, rowLine_append_singleton]
          simp [List.append_assoc]

/-- When the outer loop of `Export` succeeds, what it appended is one line
per row, for the first `k` rows. -/
theorem exportRows_inv (c : Codec T) (M : MatrixDense T) :
    ∀ (k : Nat) (out res : List Char),
      (List.range k).foldlM (MatrixDense.exportRow c M) out = .ok res →
      ∃ rows : List (List T), rows.length = k ∧
        (∀ i, i < k → ∃ row, rows[i]? = some row ∧ row.length = M._n ∧
          ∀ j, j < M._n → ∃ v, row[j]? = some v ∧ M.read i j = .ok v) ∧
        res = out ++ rows.flatMap (fun row => rowLine c row ++ ['\n']) := by
  intro k
  induction k with
  | zero =>
    intro out res h
    refine ⟨[], rfl, fun i hi => absurd hi (Nat.not_lt_zero i), ?_⟩
    have h2 : (Except.ok out : Except Error (List Char)) = .ok res := h
    cases h2
    simp
  | succ k ih =>
    intro out res h
    rw [List.range_succ, List.foldlM_append] at h
    cases hfold : (List.range k).foldlM (MatrixDense.exportRow c M) out with
    | error e =>
      rw [hfold] at h
      cases h
    | ok o =>
      rw [hfold] at h
      obtain ⟨rows, hlen, hrows, ho⟩ := ih out o hfold
      have h2 : MatrixDense.exportRow c M o k = .ok res := by
        have h3 : (MatrixDense.exportRow c M o k >>= fun x => pure x) = .ok res := h
        rw [bind_pure] at h3
        exact h3
      unfold MatrixDense.exportRow at h2
      cases hcells : (List.range M._n).foldlM (MatrixDense.exportCell c M k) o with
      | error e =>
        rw [hcells] at h2
        cases h2
      | ok o2 =>
        rw [hcells] at h2
        cases h2
        obtain ⟨vs, hvlen, hvs, ho2⟩ := exportCells_inv c M k M._n o o2 hcells
        refine ⟨rows ++ [vs], by simp [hlen], ?_, ?_⟩
        · intro i hi
          by_cases hik : i < k
          · obtain ⟨row, hr1, hr2⟩ := hrows i hik
            exact ⟨row, by rw [List.getElem?_append_left (by omega)]; exact hr1, hr2⟩
          · have hieq : i = k := by omega
            subst hieq
            exact ⟨vs, by rw [List.getElem?_append_right (by omega)]; simp [hlen], hvlen, hvs⟩
        · rw [ho2, ho]
          simp [List.append_assoc]

/-- Rows of equal length `n`, concatenated, hold `rows.length * n` values. -/
theorem flatten_length_of_rows (n : Nat) (rows : List (List T))
    (h : ∀ row ∈ rows, row.length = n) : rows.flatten.length = rows.length * n := by
  induction rows with
  | nil => simp
  | cons row rows ih =>
    rw [List.flatten_cons, List.length_append, h row (List.mem_cons_self row rows),
      ih (fun r hr => h r (List.mem_cons_of_mem row hr)), List.length_cons, Nat.succ_mul]
    omega

/-- C8: when `Export` of a dense matrix succeeds, the text written is a first
line `<m> <n>` followed by exactly `m` lines; line `i` holds exactly the `n`
cells `M(i,0), ..., M(i,n-1)` in column order, each followed by a blank, zeros
included; so the file holds `m * n` value tokens in row-major order. -/
theorem Export_layout (c : Codec T) (M : MatrixDense T) (canOpen : Bool) (text : List Char)
    (h : M.Export c canOpen = .ok text) :
    ∃ rows : List (List T), rows.length = M._m ∧
      (∀ i, i < M._m → ∃ row, rows[i]? = some row ∧ row.length = M._n ∧
        ∀ j, j < M._n → ∃ v, row[j]? = some v ∧ M.read i j = .ok v) ∧
      text = denseText c M._m M._n rows ∧
      rows.flatten.length = M._m * M._n := by
  unfold MatrixDense.Export at h
  cases hopen : canOpen with
  | false =>
    rw [hopen] at h
    cases h
  | true =>
    rw [hopen] at h
    simp only [Bool.not_true, Bool.false_eq_true, if_false] at h
    obtain ⟨rows, hlen, hrows, htext⟩ := exportRows_inv c M M._m _ text h
    refine ⟨rows, hlen, hrows, ?_, ?_⟩
    · rw [htext]
      rfl
    · rw [flatten_length_of_rows M._n rows, hlen]
      intro row hrow
      obtain ⟨i, hi, hget⟩ := List.getElem_of_mem hrow
      obtain ⟨row2, hr1, hr2, _⟩ := hrows i (by omega)
      rw [List.getElem?_eq_getElem hi, hget] at hr1
      cases hr1
      exact hr2

/-- Witness for C8: the 2x2 matrix `[[1,0],[3,4]]` is exported as the lines
`2 2`, `1 0 ` and `3 4 `. -/
theorem Export_layout_witness :
    (⟨2, 2, [1, 0, 3, 4]⟩ : MatrixDense Int).Export doubleCodec true =
      .ok ("2 2\n1 0 \n3 4 \n".toList) ∧
    ∃ rows : List (List Int), rows.length = 2 ∧
      (∀ i, i < 2 → ∃ row, rows[i]? = some row ∧ row.length = 2 ∧
        ∀ j, j < 2 →
          ∃ v, row[j]? = some v ∧ (⟨2, 2, [1, 0, 3, 4]⟩ : MatrixDense Int).read i j = .ok v) ∧
      "2 2\n1 0 \n3 4 \n".toList = denseText doubleCodec 2 2 rows ∧
      rows.flatten.length = 2 * 2 :=
  ⟨by decide,
    Export_layout doubleCodec (⟨2, 2, [1, 0, 3, 4]⟩ : MatrixDense Int) true
      ("2 2\n1 0 \n3 4 \n".toList) (by decide)⟩

end DenseLayout

/-! ## Diagonal export and the round trip (C2) -/

section DiagonalFile

variable {T : Type}

/-- The loop of the diagonal `Export` appends the line of the first `k` entries. -/
theorem diagonalCells_ok (c : Codec T) (D : MatrixDiagonal T) (out : List Char) (k : Nat)
    (hk : k ≤ D.data.length) :
    (List.range k).foldlM (MatrixDiagonal.exportCell c D) out =
      .ok (out ++ rowLine c (D.data.take k)) := by
  induction k with
  | zero => simp [rowLine]; rfl
  | succ k ih =>
    have hlt : k < D.data.length := by omega
    rw [List.range_succ, List.foldlM_append, ih (by omega), List.take_succ,
      List.getElem?_eq_getElem hlt]
    simp only [Option.toList, rowLine_append_singleton]
    show (List.foldlM (MatrixDiagonal.exportCell c D) _ [k] : Except Error (List Char)) = _
    simp only [List.foldlM, MatrixDiagonal.exportCell, List.getElem?_eq_getElem hlt]
    simp [List.append_assoc]

/-- The diagonal `Export` of a well-formed matrix succeeds and writes the diagonal
file of its entries. -/
theorem diagonal_Export_ok (c : Codec T) (D : MatrixDiagonal T) (hwf : D.WF) :
    D.Export c true = .ok (diagonalText c D._size D.data) := by
  simp only [MatrixDiagonal.Export, Bool.not_true, Bool.false_eq_true, if_false]
  rw [diagonalCells_ok c D _ D._size (by rw [hwf.2]), ← hwf.2, List.take_length]
  rfl

/-- The length of a resized vector. -/
theorem diagonal_resize_length [Zero T] (data : List T) (k : Nat) :
    (MatrixDiagonal.resize data k).length = k := by
  simp [MatrixDiagonal.resize]
  omega

/-- Importing a diagonal file `<size>` followed by `size` values that survive
the text conversion yields the diagonal matrix of these values. -/
theorem diagonal_Import_diagonalText [Zero T] (c : Codec T) (other : MatrixDiagonal T)
    (size : Nat) (hs : size < UINT) (diag : List T) (hlen : diag.length = size)
    (hreads : ∀ v ∈ diag, c.Reads v) :
    other.Import c (some (diagonalText c size diag)) = (.ok (), ⟨size, diag⟩) := by
  subst hlen
  have htext : diagonalText c diag.length diag =
      putUnsigned diag.length ++ '\n' :: rowLine c diag := by
    simp [diagonalText]
  have h1 := extract_putUnsigned diag.length hs '\n' (by decide) (rowLine c diag) other._size
  have htok : Tokens c diag ('\n' :: rowLine c diag) := by
    have := tokens_rowLine c diag hreads [] [] (Tokens.done [])
    simp only [List.append_nil] at this
    exact Tokens.space '\n' _ _ (by decide) this
  have hloop := importLoop_tokens c diag _ htok 0
    (MatrixDiagonal.resize other.data diag.length)
    (by rw [diagonal_resize_length]; omega)
  simp only [MatrixDiagonal.Import, htext, h1]
  rw [List.range_eq_range', hloop]
  have : List.drop (0 + diag.length) (MatrixDiagonal.resize other.data diag.length) = [] := by
    apply List.drop_eq_nil_of_le
    rw [diagonal_resize_length]
    omega
  rw [this]
  simp

/-- C2 amended: for every well-formed diagonal matrix `D` whose diagonal values
all survive the text conversion, `Export` succeeds, and importing the exported
text into any diagonal matrix yields exactly `D`: the same size and the same
diagonal sequence, read `(i,i)` returning what it returns on `D`. -/
theorem diagonal_roundtrip [Zero T] (c : Codec T) (D other : MatrixDiagonal T) (hwf : D.WF)
    (hreads : ∀ v ∈ D.data, c.Reads v) :
    ∃ text, D.Export c true = .ok text ∧
      other.Import c (some text) = (.ok (), D) ∧
      ∀ i, i < D._size →
        ∃ v, D.data[i]? = some v ∧ D.read i i = .ok v ∧
          (other.Import c (some text)).2.read i i = .ok v := by
  have himp := diagonal_Import_diagonalText c other D._size hwf.1 D.data hwf.2 hreads
  refine ⟨_, diagonal_Export_ok c D hwf, himp, ?_⟩
  intro i hi
  have hlt : i < D.data.length := by rw [hwf.2]; exact hi
  have hread : D.read i i = .ok (D.data.get ⟨i, hlt⟩) := by
    have hnot : ¬ D._size ≤ i := by omega
    simp [MatrixDiagonal.read, MatrixDiagonal.operatorCallConst, hnot, load,
      List.getElem?_eq_getElem hlt]
  exact ⟨_, List.getElem?_eq_getElem hlt, hread, by rw [himp]; exact hread⟩

/-- Witness for C2 amended: the diagonal matrix of `Test` (5, 10, 15), exported
and imported into a diagonal matrix of size 1. -/
theorem diagonal_roundtrip_witness :
    (⟨3, [5, 10, 15]⟩ : MatrixDiagonal Int).Export doubleCodec true =
      .ok ("3\n5 10 15 ".toList) ∧
    ∃ text, (⟨3, [5, 10, 15]⟩ : MatrixDiagonal Int).Export doubleCodec true = .ok text ∧
      (MatrixDiagonal.new 1 : MatrixDiagonal Int).Import doubleCodec (some text) =
        (.ok (), ⟨3, [5, 10, 15]⟩) ∧
      ∀ i, i < 3 →
        ∃ v, ([5, 10, 15] : List Int)[i]? = some v ∧
          (⟨3, [5, 10, 15]⟩ : MatrixDiagonal Int).read i i = .ok v ∧
          ((MatrixDiagonal.new 1 : MatrixDiagonal Int).Import doubleCodec
            (some text)).2.read i i = .ok v :=
  ⟨by decide,
    diagonal_roundtrip doubleCodec (⟨3, [5, 10, 15]⟩ : MatrixDiagonal Int) (MatrixDiagonal.new 1)
      (by decide)
      (by
        intro v hv
        simp only [List.mem_cons, List.mem_singleton, List.not_mem_nil, or_false] at hv
        rcases hv with h | h | h <;> subst h <;> intro rest old <;> rfl)⟩

/-- C2 refuted: the well-formed diagonal matrix of size 2 with diagonal
1234567, 5 is exported as `1.23457e+06 5 ` and comes back with diagonal
1234570, 5, so read (0,0) differs; and the off-diagonal read (0,1) of the
imported matrix goes through a reference to a destroyed temporary, so it does
not return 0. -/
theorem diagonal_roundtrip_fails :
    (⟨2, [1234567, 5]⟩ : MatrixDiagonal Int).WF ∧
    (⟨2, [1234567, 5]⟩ : MatrixDiagonal Int).Export doubleCodec true =
      .ok ("2\n1.23457e+06 5 ".toList) ∧
    (MatrixDiagonal.new 0 : MatrixDiagonal Int).Import doubleCodec
      (some ("2\n1.23457e+06 5 ".toList)) = (.ok (), ⟨2, [1234570, 5]⟩) ∧
    (⟨2, [1234567, 5]⟩ : MatrixDiagonal Int).read 0 0 = .ok 1234567 ∧
    (⟨2, [1234570, 5]⟩ : MatrixDiagonal Int).read 0 0 = .ok 1234570 ∧
    (⟨2, [1234570, 5]⟩ : MatrixDiagonal Int).read 0 1 = .error .undefined_behaviour := by
  decide

end DiagonalFile

/-! ## The class invariants are kept by every operation -/

section Invariants

variable {T : Type}

/-- Extraction of an `unsigned` stores an `unsigned` value or leaves the old one. -/
theorem extract_getUnsigned_lt (s : IStream) (old : Nat) (h : old < UINT) :
    (extract getUnsigned s old).1 < UINT := by
  unfold extract
  split
  · exact h
  · split
    · exact h
    · simp only [getUnsigned]
      split
      · exact (by decide : 0 < UINT)
      · split
        · assumption
        · exact (by decide : UINT - 1 < UINT)

/-- The read loop keeps the length of the buffer. -/
theorem importLoop_length (c : Codec T) (l : List Nat) :
    ∀ st : List T × IStream, (l.foldl (importStep c) st).1.length = st.1.length := by
  induction l with
  | nil => intro st; rfl
  | cons i l ih =>
    intro st
    rw [List.foldl_cons, ih]
    unfold importStep
    split
    · rfl
    · simp

/-- The dense `Import` leaves a well-formed matrix behind, whatever the file holds. -/
theorem dense_Import_WF (c : Codec T) (M : MatrixDense T) (hwf : M.WF)
    (file : Option (List Char)) (fresh : Nat → T) : (M.Import c file fresh).2.WF := by
  cases file with
  | none => exact hwf
  | some text =>
    refine ⟨extract_getUnsigned_lt _ _ hwf.1, extract_getUnsigned_lt _ _ hwf.2.1, ?_⟩
    simp only [MatrixDense.Import]
    rw [importLoop_length]
    simp

/-- A write through a reference keeps the length of the buffer. -/
theorem store_length (data d : List T) (v : T) (r : Ref T) (h : store data v r = .ok d) :
    d.length = data.length := by
  cases r with
  | elem k =>
    simp only [store] at h
    split at h
    · cases h
      simp
    · cases h
  | temporary w => cases h

/-- An assignment through the mutable accessor of a dense matrix keeps the invariant. -/
theorem dense_assign_WF (M : MatrixDense T) (hwf : M.WF) (i j : Nat) (v : T) :
    (M.assign i j v).2.WF := by
  unfold MatrixDense.assign
  cases M.operatorCall i j with
  | error e => exact hwf
  | ok r =>
    dsimp only
    cases h2 : store M.data v r with
    | error e => exact hwf
    | ok d => exact ⟨hwf.1, hwf.2.1, by rw [← hwf.2.2]; exact store_length M.data d v r h2⟩

/-- The diagonal constructor establishes the class invariant. -/
theorem diagonal_new_WF [Zero T] (size : Nat) (h : size < UINT) :
    (MatrixDiagonal.new size : MatrixDiagonal T).WF := by
  simp [MatrixDiagonal.new, MatrixDiagonal.WF, h]

/-- The diagonal `Import` leaves a well-formed matrix behind, whatever the file holds. -/
theorem diagonal_Import_WF [Zero T] (c : Codec T) (D : MatrixDiagonal T) (hwf : D.WF)
    (file : Option (List Char)) : (D.Import c file).2.WF := by
  cases file with
  | none => exact hwf
  | some text =>
    refine ⟨extract_getUnsigned_lt _ _ hwf.1, ?_⟩
    simp only [MatrixDiagonal.Import]
    rw [importLoop_length, diagonal_resize_length]

/-- An assignment through the mutable accessor of a diagonal matrix keeps the invariant. -/
theorem diagonal_assign_WF (D : MatrixDiagonal T) (hwf : D.WF) (i j : Nat) (v : T) :
    (D.assign i j v).2.WF := by
  unfold MatrixDiagonal.assign
  cases D.operatorCall i j with
  | error e => exact hwf
  | ok r =>
    dsimp only
    cases h2 : store D.data v r with
    | error e => exact hwf
    | ok d => exact ⟨hwf.1, by rw [← hwf.2]; exact store_length D.data d v r h2⟩

end Invariants

/-! ## Which values survive the text conversion -/

section Conversions

/-- A digit character is not a sign. -/
theorem isDigit_not_sign (c : Char) (h : c.isDigit = true) : c ≠ '-' ∧ c ≠ '+' := by
  constructor <;> (intro hc; subst hc; exact absurd h (by decide))

/-- Extraction of a `double` from a plain digit string of value at most
`2 ^ 53`, with or without a minus sign, followed by a blank. -/
theorem getDouble_digits (ds : List Char) (hne : ds ≠ []) (hdig : ∀ c ∈ ds, c.isDigit = true)
    (hval : natOf ds ≤ 2 ^ 53) (rest : List Char) :
    getDouble (ds ++ ' ' :: rest) = ((natOf ds : Int), ' ' :: rest, false) ∧
    getDouble ('-' :: (ds ++ ' ' :: rest)) = (- (natOf ds : Int), ' ' :: rest, false) := by
  have htake : (ds ++ ' ' :: rest).takeWhile Char.isDigit = ds := by
    rw [List.takeWhile_append_of_pos hdig, List.takeWhile_cons]
    simp
  have hdrop : (ds ++ ' ' :: rest).dropWhile Char.isDigit = ' ' :: rest := by
    rw [List.dropWhile_append_of_pos hdig, List.dropWhile_cons]
    simp
  cases hds : ds with
  | nil => exact absurd hds hne
  | cons d t =>
    have hd := isDigit_not_sign d (hdig d (by rw [hds]; exact List.mem_cons_self d t))
    rw [hds] at htake hdrop hval
    simp only [List.cons_append] at htake hdrop
    have hscale : scaleInt (natOf (d :: t)) 0 0 = some (natOf (d :: t)) := by
      have h53 : (2 : Nat) ^ 53 = 9007199254740992 := by norm_num
      rw [h53] at hval
      simp [scaleInt, hval]
    constructor
    · simp [getDouble, htake, hdrop, hd.1, hd.2, getExponent, hscale]
    · simp [getDouble, htake, hdrop, getExponent, hscale]

/-- Every integer of at most six digits survives the `double` text conversion
at the default precision. -/
theorem doubleCodec_reads (v : Int) (hv : v.natAbs < 10 ^ 6) : doubleCodec.Reads v := by
  intro rest old
  obtain ⟨h1, h2, h3⟩ := putUnsigned_spec v.natAbs
  have hlen : (putUnsigned v.natAbs).length ≤ 6 :=
    Nat.toDigitsCore_length 10 (by decide) _ _ 6 hv (by decide)
  have hget := getDouble_digits (putUnsigned v.natAbs) h1 (fun c hc => (h2 c hc).1)
    (by rw [h3]; exact Nat.le_of_lt (Nat.lt_of_lt_of_le hv (by norm_num))) rest
  rw [h3] at hget
  have hput : putDouble v = (if v < 0 then ['-'] else []) ++ putUnsigned v.natAbs := by
    have : (Nat.toDigits 10 v.natAbs).length ≤ 6 := hlen
    simp [putDouble, putUnsigned, this]
  show extract getDouble ⟨putDouble v ++ ' ' :: rest, false⟩ old = _
  rw [hput]
  by_cases hneg : v < 0
  · have hv2 : - (v.natAbs : Int) = v := by omega
    have hg := hget.2
    rw [hv2] at hg
    simp only [hneg, if_true, List.cons_append, List.nil_append, extract, List.dropWhile_cons]
    simp [show isspace '-' = false by decide, hg]
  · have hv2 : (v.natAbs : Int) = v := by omega
    cases hds : putUnsigned v.natAbs with
    | nil => exact absurd hds h1
    | cons d t =>
      have hd : isspace d = false := (h2 d (by rw [hds]; exact List.mem_cons_self d t)).2
      have hg := hget.1
      rw [hds, hv2] at hg
      simp only [List.cons_append] at hg
      simp only [hneg, if_false, List.cons_append, List.nil_append, extract, List.dropWhile_cons,
        hd]
      simp [hg]

/-- The integer 1234567 does not survive the `double` text conversion: it
is written with six significant digits and read back as 1234570. -/
theorem doubleCodec_loses_seventh_digit :
    putDouble 1234567 = "1.23457e+06".toList ∧
    extract doubleCodec.get ⟨doubleCodec.put 1234567 ++ [' '], false⟩ 0 =
      (1234570, ⟨[' '], false⟩) ∧
    ¬ doubleCodec.Reads 1234567 := by
  refine ⟨by decide, by decide, ?_⟩
  intro h
  exact absurd (h [] 0) (by decide)

/-- With `double` cells at the default precision: without overflow, a
well-formed dense matrix of integers of at most six digits is exported and
imported back exactly. -/
theorem dense_roundtrip_six_digits (M other : MatrixDense Int) (fresh : Nat → Int)
    (hwf : M.WF) (hno : M._m * M._n < UINT) (hcells : ∀ v ∈ M.data, v.natAbs < 10 ^ 6) :
    M.Export doubleCodec true =
      .ok (denseText doubleCodec M._m M._n (rowsOf M._m M._n M.data)) ∧
    other.Import doubleCodec (some (denseText doubleCodec M._m M._n
      (rowsOf M._m M._n M.data))) fresh = (.ok (), M) :=
  dense_export_import doubleCodec M other fresh hwf hno
    (fun v hv => doubleCodec_reads v (hcells v hv))

/-- With `unsigned` cells (`MatrixDense<unsigned>`): without overflow, every
well-formed dense matrix is exported and imported back exactly. -/
theorem dense_roundtrip_unsigned (M other : MatrixDense Nat) (fresh : Nat → Nat)
    (hwf : M.WF) (hno : M._m * M._n < UINT) (hcells : ∀ v ∈ M.data, v < UINT) :
    M.Export unsignedCodec true =
      .ok (denseText unsignedCodec M._m M._n (rowsOf M._m M._n M.data)) ∧
    other.Import unsignedCodec (some (denseText unsignedCodec M._m M._n
      (rowsOf M._m M._n M.data))) fresh = (.ok (), M) :=
  dense_export_import unsignedCodec M other fresh hwf hno
    (fun v hv => unsignedCodec_reads v (hcells v hv))

end Conversions

end Lab2
